import Mathlib

/-!
Verification of the question-segmentation and repeat-detection core of the
question-pattern-predictor application (`src/app.py`).

Strings are embedded as lists of Unicode code points (`List Nat`); the inputs
the program handles are ASCII, and the Python character classes involved
(`\s`, `\d`, `str.strip`, `str.lower`) are embedded on that range.
-/

namespace QPP

/-- Code points of a string literal, used to write concrete test inputs. -/
def toCodes (s : String) : List Nat := s.data.map Char.toNat

/-- Whitespace class: the characters matched by the regex class `\s` and
stripped by `str.strip()` (tab, newline, vertical tab, form feed, carriage
return, space). -/
def isSpace (c : Nat) : Bool := c = 9 || c = 10 || c = 11 || c = 12 || c = 13 || c = 32

/-- Digit class `\d` on ASCII. -/
def isDigit (c : Nat) : Bool := 48 ≤ c && c ≤ 57

/-- The delimiter class `[\).\]]` of the splitting regex: one of `)`, `.`, `]`. -/
def isDelim (c : Nat) : Bool := c = 41 || c = 46 || c = 93

/-- Embedding of `re.sub(r'\r', '', text)`: remove every carriage return. -/
def removeCR (s : List Nat) : List Nat := s.filter (fun c => c ≠ 13)

/-- Embedding of Python `str.strip()`: drop whitespace from both ends. -/
def stripChars (s : List Nat) : List Nat :=
  ((s.dropWhile isSpace).reverse.dropWhile isSpace).reverse

/-- Embedding of Python `str.lower()` on a single code point: uppercase ASCII
letters move down into lowercase; everything else is fixed. -/
def lowerChar (c : Nat) : Nat := if 65 ≤ c ∧ c ≤ 90 then c + 32 else c

/-- The greedy `\n?` step of the splitting regex: consume one newline when
present.  Since `\n` is also in `\s`, declining the option can never turn a
failed match into a successful one, so taking it greedily loses nothing. -/
def dropNL : List Nat → List Nat
  | 10 :: r => r
  | s => s

/-- One attempted match of the regex `\n?\s*\d+[\).\]]\s+` at the head of `s`.
Returns the suffix left after the (greedy, deterministic) match, or `none` if
the pattern does not match here.  All the character classes involved are
pairwise disjoint and each atom is followed by a class disjoint from it, so
the greedy match without backtracking is the regex's leftmost match. -/
def matchMarker (s : List Nat) : Option (List Nat) :=
  match (dropNL s).dropWhile isSpace with
  | c :: r =>
    if isDigit c then
      match r.dropWhile isDigit with
      | d :: r2 =>
        if isDelim d then
          match r2 with
          | w :: _ => if isSpace w then some (r2.dropWhile isSpace) else none
          | [] => none
        else none
      | [] => none
    else none
  | [] => none

/-- The left-to-right scan of `re.split`: at each position try a match; on a
match, emit the accumulated segment and continue after the match, otherwise
advance one character.  Fuelled to make the recursion structural; fuel at
least `s.length` is enough (each step strictly shrinks `s`).  The pattern
requires a digit, so it never matches the empty suffix
(`matchMarker_nil` below); the empty case therefore emits the final
segment directly. -/
def splitAuxF : Nat → List Nat → List Nat → List (List Nat)
  | 0, s, acc => [acc.reverse ++ s]
  | _ + 1, [], acc => [acc.reverse]
  | fuel + 1, c :: rest, acc =>
    match matchMarker (c :: rest) with
    | some s2 => acc.reverse :: splitAuxF fuel s2 []
    | none => splitAuxF fuel rest (c :: acc)

/-- Embedding of `re.split(r"\n?\s*\d+[\).\]]\s+", text)`. -/
def reSplit (t : List Nat) : List (List Nat) := splitAuxF t.length t []

/-- Embedding of `split_into_questions` (src/app.py lines 51-72): normalise
line breaks, split on the numbering pattern, drop the leading junk segment,
strip each remaining segment and keep those longer than 15 characters. -/
def split_into_questions (text : List Nat) : List (List Nat) :=
  (((reSplit (removeCR text)).drop 1).map stripChars).filter
    (fun q => decide (15 < q.length))

/-- Embedding of `q.lower().strip()` (src/app.py line 139). -/
def normalizeQ (q : List Nat) : List Nat := stripChars (q.map lowerChar)

/-- First-seen deduplication, accumulating the keys already emitted; this is
the key order of a Python `Counter` built by iterating the list. -/
def dedupAux : List (List Nat) → List (List Nat) → List (List Nat)
  | _, [] => []
  | seen, a :: l => if a ∈ seen then dedupAux seen l else a :: dedupAux (a :: seen) l

/-- Number of occurrences of `k` in `l` (string equality, as Python's
`Counter` counts hash-equal keys). -/
def countOf (l : List (List Nat)) (k : List Nat) : Nat :=
  (l.filter (fun x => decide (x = k))).length

/-- Embedding of `Counter(normalized).items()`: each distinct element, in
first-insertion order, paired with its multiplicity in the list. -/
def counterItems (l : List (List Nat)) : List (List Nat × Nat) :=
  (dedupAux [] l).map (fun k => (k, countOf l k))

/-- Embedding of `repeated = [(q, c) for q, c in counts.items() if c > 1]`
applied to the counter of the normalised questions (src/app.py lines 139-142). -/
def repeatedPairs (all_questions : List (List Nat)) : List (List Nat × Nat) :=
  (counterItems (all_questions.map normalizeQ)).filter (fun p => decide (1 < p.2))

/-- Run a fallible step over a list, stopping at the first failure; this is
the effect of a `for` loop whose body may raise. -/
def mapOpt (f : α → Option β) : List α → Option (List β)
  | [] => some []
  | a :: l =>
    match f a with
    | none => none
    | some b =>
      match mapOpt f l with
      | none => none
      | some bs => some (b :: bs)

/-- Embedding of the `repeated_readable` loop (src/app.py lines 144-147):
for each repeated normalized form, `next(q for q in all_questions if
q.lower().strip() == q_norm)` picks the first original whose normalisation
matches; `none` models the `StopIteration` that `next` would raise if no
original matched. -/
def repeated_readable (all_questions : List (List Nat)) : Option (List (List Nat × Nat)) :=
  mapOpt
    (fun p => (all_questions.find? (fun q => decide (normalizeQ q = p.1))).map
      (fun orig => (orig, p.2)))
    (repeatedPairs all_questions)

/-- Embedding of `sorted(repeated_readable, key=lambda x: x[1], reverse=True)`
(src/app.py line 156): Python's sort is stable, so on the count key it agrees
with stable insertion sort under the relation "count at least as large". -/
def sortByCountDesc (l : List (List Nat × Nat)) : List (List Nat × Nat) :=
  List.insertionSort (fun a b => b.2 ≤ a.2) l

/-- Embedding of `len(all_questions)` as reported to the user
(src/app.py line 151). -/
def total_questions (all_questions : List (List Nat)) : Nat := all_questions.length

/-- Embedding of `joined_questions = "\n".join(all_questions[:50])`
(src/app.py line 162): the block of question text embedded into the
pattern-analysis prompt (the prompt's fixed instruction text does not depend
on the questions and is not modelled). -/
def joinNL : List (List Nat) → List Nat
  | [] => []
  | [q] => q
  | q :: qs => q ++ 10 :: joinNL qs

def joined_questions (all_questions : List (List Nat)) : List Nat :=
  joinNL (all_questions.take 50)

/-- Startup outcome of the script: either it halts at the credential check
with a user-visible error, or it goes on to build the upload widgets. -/
inductive AppPhase
  | haltedWithError (msg : List Nat)
  | acceptingUploads
deriving DecidableEq

def missing_key_error : List Nat :=
  toCodes "OPENAI_API_KEY is not set. Please add it to your .env file."

/-- Embedding of src/app.py lines 12-36: `os.getenv` yields `none` when the
variable is absent; `if not OPENAI_API_KEY` is taken both when the variable
is absent and when it is empty, and then `st.error` shows the message and
`st.stop()` ends the script run before any `st.file_uploader` call. -/
def app_start (env_OPENAI_API_KEY : Option (List Nat)) : AppPhase :=
  match env_OPENAI_API_KEY with
  | none => .haltedWithError missing_key_error
  | some k => if k = [] then .haltedWithError missing_key_error else .acceptingUploads

/-! Definitions written from the specification's words, for comparison with
the embedding of the code.  They are deliberately written independently of
the embedding above. -/

/-- Marker matcher written from the spec's description of the numbering
marker: "optional leading whitespace/newline, one or more digits, a closing
delimiter which is one of `)`, `.`, or `]`, followed by required whitespace".
Returns the text remaining after the marker, or `none` when no marker starts
here. -/
def specMarker (s : List Nat) : Option (List Nat) :=
  match s.dropWhile isSpace with
  | c :: r =>
    if isDigit c then
      match r.dropWhile isDigit with
      | d :: r2 =>
        if isDelim d then
          match r2 with
          | w :: _ => if isSpace w then some (r2.dropWhile isSpace) else none
          | [] => none
        else none
      | [] => none
    else none
  | [] => none

/-- Spec-side splitting scan: "split the text at every occurrence" of the
marker, left to right (a marker needs a digit, so none starts at the empty
suffix). -/
def specSplitAuxF : Nat → List Nat → List Nat → List (List Nat)
  | 0, s, acc => [acc.reverse ++ s]
  | _ + 1, [], acc => [acc.reverse]
  | fuel + 1, c :: rest, acc =>
    match specMarker (c :: rest) with
    | some s2 => acc.reverse :: specSplitAuxF fuel s2 []
    | none => specSplitAuxF fuel rest (c :: acc)

def specSegments (t : List Nat) : List (List Nat) := specSplitAuxF t.length t []

/-- The Question Segmenter as the spec words it: strip carriage returns,
split at every marker, discard the first segment, trim the rest, and keep the
trimmed segments longer than 15 characters, in document order. -/
def segmenterSpec (text : List Nat) : List (List Nat) :=
  (((specSegments (removeCR text)).drop 1).map stripChars).filter
    (fun q => decide (15 < q.length))

/-- Spec-side representative lookup: the first question of the input, in
document order, whose normalisation equals `key`. -/
def firstWithNorm : List (List Nat) → List Nat → Option (List Nat)
  | [], _ => none
  | q :: rest, key => if normalizeQ q = key then some q else firstWithNorm rest key

/-- Whether the splitting pattern matches anywhere in `s` (the text
"contains a numbering marker"). -/
def hasMarker : List Nat → Bool
  | [] => false
  | c :: rest => (matchMarker (c :: rest)).isSome || hasMarker rest

/-! Facts about `dropWhile` and `stripChars`. -/

theorem dropWhile_dropWhile {α : Type} (p : α → Bool) (l : List α) :
    (l.dropWhile p).dropWhile p = l.dropWhile p := by
  induction l with
  | nil => rfl
  | cons a l ih =>
    cases h : p a with
    | true => simp [List.dropWhile_cons, h, ih]
    | false => simp [List.dropWhile_cons, h]

theorem dropWhile_eq_self_of_prefixOf {α : Type} {p : α → Bool} {y z : List α}
    (hy : y.dropWhile p = y) (hz : z <+: y) : z.dropWhile p = z := by
  cases z with
  | nil => rfl
  | cons a t =>
    cases y with
    | nil => simp [List.prefix_nil] at hz
    | cons b u =>
      obtain ⟨hab, -⟩ := List.cons_prefix_cons.mp hz
      subst hab
      cases hpb : p a with
      | false => simp [List.dropWhile_cons, hpb]
      | true =>
        rw [List.dropWhile_cons, if_pos hpb] at hy
        have hlen := congrArg List.length hy
        have hle := (List.dropWhile_sublist (l := u) p).length_le
        simp at hlen
        omega

theorem stripChars_prefixOf_dropWhile (s : List Nat) : stripChars s <+: s.dropWhile isSpace := by
  have h : (s.dropWhile isSpace).reverse.dropWhile isSpace <:+ (s.dropWhile isSpace).reverse :=
    List.dropWhile_suffix _
  have h2 := List.reverse_prefix.mpr h
  rwa [List.reverse_reverse] at h2

theorem dropWhile_stripChars (s : List Nat) :
    (stripChars s).dropWhile isSpace = stripChars s :=
  dropWhile_eq_self_of_prefixOf (dropWhile_dropWhile _ _) (stripChars_prefixOf_dropWhile s)

theorem stripChars_idem (s : List Nat) : stripChars (stripChars s) = stripChars s := by
  have h2 : (stripChars s).reverse = (s.dropWhile isSpace).reverse.dropWhile isSpace := by
    show ((s.dropWhile isSpace).reverse.dropWhile isSpace).reverse.reverse = _
    rw [List.reverse_reverse]
  show (((stripChars s).dropWhile isSpace).reverse.dropWhile isSpace).reverse = stripChars s
  rw [dropWhile_stripChars, h2, dropWhile_dropWhile, ← h2, List.reverse_reverse]

theorem isSpace_lowerChar (c : Nat) : isSpace (lowerChar c) = isSpace c := by
  unfold lowerChar
  split
  · next h =>
    have h1 : isSpace (c + 32) = false := by
      simp only [isSpace, Bool.or_eq_false_iff, decide_eq_false_iff_not]
      omega
    have h2 : isSpace c = false := by
      simp only [isSpace, Bool.or_eq_false_iff, decide_eq_false_iff_not]
      omega
    rw [h1, h2]
  · rfl

theorem dropWhile_isSpace_map_lowerChar (l : List Nat) :
    (l.map lowerChar).dropWhile isSpace = (l.dropWhile isSpace).map lowerChar := by
  rw [List.dropWhile_map]
  have hp : (isSpace ∘ lowerChar) = isSpace := by
    funext c
    exact isSpace_lowerChar c
  rw [hp]

theorem stripChars_map_lowerChar (l : List Nat) :
    stripChars (l.map lowerChar) = (stripChars l).map lowerChar := by
  unfold stripChars
  rw [dropWhile_isSpace_map_lowerChar, ← List.map_reverse,
    dropWhile_isSpace_map_lowerChar, ← List.map_reverse]

/-! Facts about the marker matcher and the splitting scan. -/

theorem dropNL_length (s : List Nat) : (dropNL s).length ≤ s.length := by
  unfold dropNL
  split
  · simp
  · exact le_refl _

theorem matchMarker_length {s s2 : List Nat} (h : matchMarker s = some s2) :
    s2.length < s.length := by
  have h0 := dropNL_length s
  unfold matchMarker at h
  cases hdw : (dropNL s).dropWhile isSpace with
  | nil => simp [hdw] at h
  | cons c r =>
    have hcr : (c :: r).length ≤ (dropNL s).length := by
      rw [← hdw]; exact (List.dropWhile_sublist _).length_le
    simp only [hdw] at h
    cases hc : isDigit c with
    | false => simp [hc] at h
    | true =>
      simp only [hc, if_true] at h
      cases hdd : r.dropWhile isDigit with
      | nil => simp [hdd] at h
      | cons d r2 =>
        have hdr : (d :: r2).length ≤ r.length := by
          rw [← hdd]; exact (List.dropWhile_sublist _).length_le
        simp only [hdd] at h
        cases hd : isDelim d with
        | false => simp [hd] at h
        | true =>
          simp only [hd, if_true] at h
          cases r2 with
          | nil => simp at h
          | cons w ws =>
            cases hw : isSpace w with
            | false => simp [hw] at h
            | true =>
              simp only [hw, if_true, Option.some.injEq] at h
              have hw2 : s2.length ≤ (w :: ws).length := by
                rw [← h]; exact (List.dropWhile_sublist _).length_le
              simp only [List.length_cons] at hcr hdr hw2
              omega

theorem dropWhile_isSpace_dropNL (s : List Nat) :
    (dropNL s).dropWhile isSpace = s.dropWhile isSpace := by
  cases s with
  | nil => rfl
  | cons c r =>
    by_cases h : c = 10
    · subst h
      show r.dropWhile isSpace = (10 :: r).dropWhile isSpace
      rw [List.dropWhile_cons]
      have : isSpace 10 = true := by decide
      rw [this, if_pos rfl]
    · have hd : dropNL (c :: r) = c :: r := by
        unfold dropNL
        split
        · next heq => exact absurd (List.cons.injEq .. ▸ congrArg id heq).1 h
        · rfl
      rw [hd]

theorem specMarker_eq_matchMarker (s : List Nat) : specMarker s = matchMarker s := by
  unfold specMarker matchMarker
  rw [dropWhile_isSpace_dropNL]

theorem matchMarker_nil : matchMarker [] = none := rfl

theorem splitAuxF_succ_some {c : Nat} {rest s2 : List Nat}
    (h : matchMarker (c :: rest) = some s2) (f : Nat) (acc : List Nat) :
    splitAuxF (f + 1) (c :: rest) acc = acc.reverse :: splitAuxF f s2 [] := by
  conv_lhs => rw [splitAuxF]
  rw [h]

theorem splitAuxF_succ_none {c : Nat} {rest : List Nat}
    (h : matchMarker (c :: rest) = none) (f : Nat) (acc : List Nat) :
    splitAuxF (f + 1) (c :: rest) acc = splitAuxF f rest (c :: acc) := by
  conv_lhs => rw [splitAuxF]
  rw [h]

theorem specSplitAuxF_eq (fuel : Nat) :
    ∀ s acc, specSplitAuxF fuel s acc = splitAuxF fuel s acc := by
  induction fuel with
  | zero => intro s acc; rfl
  | succ f ih =>
    intro s acc
    cases s with
    | nil => rfl
    | cons c rest =>
      rw [specSplitAuxF, splitAuxF, specMarker_eq_matchMarker]
      cases matchMarker (c :: rest) with
      | some s2 => simp only [ih]
      | none => simp only [ih]

theorem splitAuxF_no_marker :
    ∀ (fuel : Nat) (s acc : List Nat), hasMarker s = false →
      splitAuxF fuel s acc = [acc.reverse ++ s] := by
  intro fuel
  induction fuel with
  | zero => intro s acc _; rfl
  | succ f ih =>
    intro s acc hnm
    cases s with
    | nil =>
      show [acc.reverse] = [acc.reverse ++ []]
      simp
    | cons c rest =>
      unfold hasMarker at hnm
      rw [Bool.or_eq_false_iff] at hnm
      obtain ⟨h1, h2⟩ := hnm
      have hm : matchMarker (c :: rest) = none := by
        cases hmm : matchMarker (c :: rest) with
        | none => rfl
        | some _ => rw [hmm] at h1; simp at h1
      rw [splitAuxF_succ_none hm, ih rest (c :: acc) h2]
      simp

/-- C1: for every input text, the Question Segmenter splits the
carriage-return-stripped text at every occurrence of the numbering marker
(optional leading whitespace/newline, one or more digits, a closing
delimiter which is one of `)`, `.`, `]`, then required whitespace), discards
the first segment, trims each remaining segment, and returns exactly the
trimmed segments whose length exceeds 15 characters, in document order. -/
theorem C1_segmenter_matches_spec (text : List Nat) :
    split_into_questions text = segmenterSpec text := by
  unfold split_into_questions segmenterSpec specSegments reSplit
  rw [specSplitAuxF_eq]

/-- C2: every question string returned by the Segmenter has trimmed length
strictly greater than 15, and is already trimmed (it equals its own trim). -/
theorem C2_returned_questions_trimmed (text q : List Nat)
    (h : q ∈ split_into_questions text) :
    stripChars q = q ∧ 15 < (stripChars q).length := by
  unfold split_into_questions at h
  rw [List.mem_filter] at h
  obtain ⟨hm, hlen⟩ := h
  rw [List.mem_map] at hm
  obtain ⟨p, -, hp⟩ := hm
  have hq : stripChars q = q := by rw [← hp]; exact stripChars_idem p
  refine ⟨hq, ?_⟩
  rw [hq]
  simpa using hlen

theorem C2_witness :
    stripChars (toCodes "Explain polymorphism with an example.")
        = toCodes "Explain polymorphism with an example."
    ∧ 15 < (stripChars (toCodes "Explain polymorphism with an example.")).length :=
  C2_returned_questions_trimmed
    (toCodes "1. Explain polymorphism with an example.") _ (by decide)

/-- C7: the Segmenter is a total function (the embedding returns a value on
every input); on empty text, and on any text whose carriage-return-stripped
form contains no numbering marker, it returns the empty sequence, the
discard-first-segment step having discarded the whole text. -/
theorem C7_degenerate_input_empty :
    split_into_questions [] = []
    ∧ ∀ text : List Nat, hasMarker (removeCR text) = false →
        split_into_questions text = [] := by
  constructor
  · rfl
  · intro text h
    unfold split_into_questions reSplit
    rw [splitAuxF_no_marker _ _ _ h]
    rfl

theorem C7_witness :
    hasMarker (removeCR
        (toCodes "Course outline and general instructions, no numbering here")) = false
    ∧ split_into_questions
        (toCodes "Course outline and general instructions, no numbering here") = [] :=
  ⟨by decide, C7_degenerate_input_empty.2 _ (by decide)⟩

/-- C4: two questions that differ only in letter case, or only in leading
and trailing whitespace, receive the same normalised form, hence land in the
same repeat group. -/
theorem C4_case_ws_same_group (A B : List Nat)
    (h : A.map lowerChar = B.map lowerChar ∨ stripChars A = stripChars B) :
    normalizeQ A = normalizeQ B := by
  unfold normalizeQ
  rcases h with h | h
  · rw [h]
  · rw [stripChars_map_lowerChar, stripChars_map_lowerChar, h]

theorem C4_witness :
    normalizeQ (toCodes "  Explain the OSI model  ")
      = normalizeQ (toCodes "Explain the OSI model") :=
  C4_case_ws_same_group _ _ (Or.inr (by decide))

/-- C9: when the API credential is absent from the environment at startup,
the script shows the missing-key error message and halts; the
accepting-uploads phase (file upload, analysis) is never reached in that
run. -/
theorem C9_missing_key_halts :
    app_start none = AppPhase.haltedWithError missing_key_error
    ∧ app_start none ≠ AppPhase.acceptingUploads :=
  ⟨rfl, by intro h; exact AppPhase.noConfusion h⟩

/-! Counting facts for the Repeat Detector. -/

theorem mem_dedupAux {x : List Nat} {l seen : List (List Nat)} :
    x ∈ dedupAux seen l ↔ x ∈ l ∧ x ∉ seen := by
  induction l generalizing seen with
  | nil => simp [dedupAux]
  | cons a l ih =>
    unfold dedupAux
    by_cases ha : a ∈ seen
    · rw [if_pos ha, ih]
      constructor
      · rintro ⟨h1, h2⟩
        exact ⟨List.mem_cons_of_mem _ h1, h2⟩
      · rintro ⟨h1, h2⟩
        rcases List.mem_cons.mp h1 with rfl | h1
        · exact absurd ha h2
        · exact ⟨h1, h2⟩
    · rw [if_neg ha]
      constructor
      · intro hx
        rcases List.mem_cons.mp hx with rfl | hx
        · exact ⟨List.mem_cons_self _ _, ha⟩
        · obtain ⟨h1, h2⟩ := ih.mp hx
          exact ⟨List.mem_cons_of_mem _ h1, fun hc => h2 (List.mem_cons_of_mem _ hc)⟩
      · rintro ⟨h1, h2⟩
        rcases List.mem_cons.mp h1 with rfl | h1
        · exact List.mem_cons_self _ _
        · by_cases hxa : x = a
          · subst hxa
            exact List.mem_cons_self _ _
          · refine List.mem_cons_of_mem _ (ih.mpr ⟨h1, ?_⟩)
            intro hc
            rcases List.mem_cons.mp hc with h | h
            · exact hxa h
            · exact h2 h

theorem nodup_dedupAux : ∀ {l seen : List (List Nat)}, (dedupAux seen l).Nodup := by
  intro l
  induction l with
  | nil => intro seen; simp [dedupAux]
  | cons a l ih =>
    intro seen
    unfold dedupAux
    by_cases ha : a ∈ seen
    · rw [if_pos ha]; exact ih
    · rw [if_neg ha]
      refine List.nodup_cons.mpr ⟨?_, ih⟩
      intro hmem
      exact (mem_dedupAux.mp hmem).2 (List.mem_cons_self _ _)

theorem countOf_cons (a k : List Nat) (l : List (List Nat)) :
    countOf (a :: l) k = countOf l k + if a = k then 1 else 0 := by
  unfold countOf
  rw [List.filter_cons]
  by_cases h : a = k
  · simp [h]
  · simp [h]

theorem filter_length_split_abstract {p q : List Nat → Bool} {a : List Nat}
    (hpa : p a = true) (hq : ∀ x, q x = (p x && !(decide (x = a)))) :
    ∀ l : List (List Nat),
      (l.filter p).length = countOf l a + (l.filter q).length := by
  intro l
  induction l with
  | nil => simp [countOf]
  | cons b l ih =>
    rw [List.filter_cons, List.filter_cons, countOf_cons]
    by_cases hba : b = a
    · subst hba
      rw [if_pos rfl, hpa, if_pos rfl]
      have hqb : q b = false := by rw [hq b]; simp
      rw [hqb]
      simp only [Bool.false_eq_true, if_false, List.length_cons, ih]
      omega
    · have hqb : q b = p b := by rw [hq b]; simp [hba]
      rw [if_neg hba, hqb]
      cases hpb : p b with
      | true =>
        rw [if_pos rfl, if_pos rfl, List.length_cons, List.length_cons, ih]
        omega
      | false =>
        rw [if_neg (by simp), if_neg (by simp), ih]
        omega

theorem filter_length_split {a : List Nat} {seen : List (List Nat)} (ha : a ∉ seen) :
    ∀ l : List (List Nat),
      (l.filter (fun x => decide (x ∉ seen))).length
        = countOf l a + (l.filter (fun x => decide (x ∉ a :: seen))).length := by
  refine filter_length_split_abstract (by simp [ha]) ?_
  intro x
  by_cases hxa : x = a
  · subst hxa
    simp
  · by_cases hxs : x ∈ seen
    · simp [hxa, hxs]
    · simp [hxa, hxs]

theorem sum_counts_dedupAux :
    ∀ (l seen : List (List Nat)),
      ((dedupAux seen l).map (fun k => countOf l k)).sum
        = (l.filter (fun x => decide (x ∉ seen))).length := by
  intro l
  induction l with
  | nil => intro seen; simp [dedupAux]
  | cons a l ih =>
    intro seen
    unfold dedupAux
    by_cases ha : a ∈ seen
    · rw [if_pos ha]
      have hcg : ∀ k ∈ dedupAux seen l, countOf (a :: l) k = countOf l k := by
        intro k hk
        have hkns := (mem_dedupAux.mp hk).2
        have hka : a ≠ k := by rintro rfl; exact hkns ha
        rw [countOf_cons, if_neg hka]
        omega
      rw [List.map_congr_left hcg, ih]
      simp [List.filter_cons, ha]
    · rw [if_neg ha]
      simp only [List.map_cons, List.sum_cons]
      have hcg : ∀ k ∈ dedupAux (a :: seen) l, countOf (a :: l) k = countOf l k := by
        intro k hk
        have hkns := (mem_dedupAux.mp hk).2
        have hka : a ≠ k := by rintro rfl; exact hkns (List.mem_cons_self _ _)
        rw [countOf_cons, if_neg hka]
        omega
      rw [List.map_congr_left hcg, ih (a :: seen)]
      rw [countOf_cons, if_pos rfl]
      rw [List.filter_cons]
      have hd : decide (a ∉ seen) = true := by simp [ha]
      rw [hd, if_pos rfl, List.length_cons, filter_length_split ha l]
      omega

/-- C3: the occurrence counts over all normalised groups sum to the length
of the input sequence; the total reported to the user equals that length;
and every input question lands in exactly one normalised bucket: the bucket
keys are pairwise distinct and every question's normalisation is among
them. -/
theorem C3_counts_partition (qs : List (List Nat)) :
    ((counterItems (qs.map normalizeQ)).map Prod.snd).sum = total_questions qs
    ∧ total_questions qs = qs.length
    ∧ ((counterItems (qs.map normalizeQ)).map Prod.fst).Nodup
    ∧ ∀ q ∈ qs, normalizeQ q ∈ (counterItems (qs.map normalizeQ)).map Prod.fst := by
  have hkeys : (counterItems (qs.map normalizeQ)).map Prod.fst
      = dedupAux [] (qs.map normalizeQ) := by
    unfold counterItems
    rw [List.map_map]
    show List.map (fun k => k) (dedupAux [] (qs.map normalizeQ)) = _
    exact List.map_id _
  refine ⟨?_, rfl, ?_, ?_⟩
  · unfold counterItems
    rw [List.map_map]
    have hc : (Prod.snd ∘ fun k => (k, countOf (qs.map normalizeQ) k))
        = fun k => countOf (qs.map normalizeQ) k := rfl
    rw [hc, sum_counts_dedupAux]
    rw [show (qs.map normalizeQ).filter (fun x => decide (x ∉ ([] : List (List Nat))))
        = qs.map normalizeQ from List.filter_eq_self.mpr (by simp)]
    rw [List.length_map]
    rfl
  · rw [hkeys]; exact nodup_dedupAux
  · intro q hq
    rw [hkeys]
    exact mem_dedupAux.mpr ⟨List.mem_map_of_mem _ hq, by simp⟩

theorem C3_witness :
    normalizeQ (toCodes "Explain the OSI model in detail.")
      ∈ (counterItems ([toCodes "Explain the OSI model in detail.",
          toCodes "explain the osi model in detail."].map normalizeQ)).map Prod.fst :=
  (C3_counts_partition _).2.2.2 _ (by decide)

/-! Facts about `mapOpt`, `repeatedPairs`, `find?` and `firstWithNorm`. -/

theorem mapOpt_eq_some_iff {α β : Type} {f : α → Option β} :
    ∀ {l : List α} {l2 : List β},
      mapOpt f l = some l2 ↔ List.Forall₂ (fun a b => f a = some b) l l2 := by
  intro l
  induction l with
  | nil =>
    intro l2
    simp [mapOpt, List.forall₂_nil_left_iff, eq_comm]
  | cons a l ih =>
    intro l2
    constructor
    · intro h
      unfold mapOpt at h
      cases hfa : f a with
      | none => simp [hfa] at h
      | some b =>
        simp only [hfa] at h
        cases hml : mapOpt f l with
        | none => simp [hml] at h
        | some bs =>
          simp only [hml, Option.some.injEq] at h
          subst h
          exact List.Forall₂.cons hfa (ih.mp hml)
    · intro h
      cases h with
      | cons hab htail =>
        unfold mapOpt
        rw [hab, ih.mpr htail]

theorem mapOpt_isSome {α β : Type} {f : α → Option β} :
    ∀ {l : List α}, (∀ a ∈ l, (f a).isSome = true) → ∃ l2, mapOpt f l = some l2 := by
  intro l
  induction l with
  | nil => intro _; exact ⟨[], rfl⟩
  | cons a l ih =>
    intro h
    obtain ⟨b, hb⟩ := Option.isSome_iff_exists.mp (h a (List.mem_cons_self _ _))
    obtain ⟨bs, hbs⟩ := ih (fun x hx => h x (List.mem_cons_of_mem _ hx))
    exact ⟨b :: bs, by unfold mapOpt; rw [hb, hbs]⟩

theorem forall₂_mem_right {α β : Type} {R : α → β → Prop} :
    ∀ {l1 : List α} {l2 : List β}, List.Forall₂ R l1 l2 →
      ∀ b ∈ l2, ∃ a ∈ l1, R a b := by
  intro l1 l2 h
  induction h with
  | nil => intro b hb; simp at hb
  | cons hab htail ih =>
    intro b hb
    rcases List.mem_cons.mp hb with rfl | hb
    · exact ⟨_, List.mem_cons_self _ _, hab⟩
    · obtain ⟨a, ha, hr⟩ := ih b hb
      exact ⟨a, List.mem_cons_of_mem _ ha, hr⟩

theorem repeatedPairs_mem {qs : List (List Nat)} {p : List Nat × Nat}
    (hp : p ∈ repeatedPairs qs) :
    1 < p.2 ∧ ∃ q ∈ qs, normalizeQ q = p.1 := by
  unfold repeatedPairs at hp
  rw [List.mem_filter] at hp
  obtain ⟨hp1, hp2⟩ := hp
  refine ⟨by simpa using hp2, ?_⟩
  unfold counterItems at hp1
  rw [List.mem_map] at hp1
  obtain ⟨k, hk, rfl⟩ := hp1
  have hkmem : k ∈ qs.map normalizeQ := (mem_dedupAux.mp hk).1
  rw [List.mem_map] at hkmem
  obtain ⟨q, hq, hqk⟩ := hkmem
  exact ⟨q, hq, hqk⟩

theorem find?_eq_firstWithNorm (qs : List (List Nat)) (key : List Nat) :
    qs.find? (fun q => decide (normalizeQ q = key)) = firstWithNorm qs key := by
  induction qs with
  | nil => rfl
  | cons q rest ih =>
    by_cases h : normalizeQ q = key
    · rw [List.find?_cons_of_pos _ (by simp [h]), firstWithNorm, if_pos h]
    · rw [List.find?_cons_of_neg _ (by simp [h]), ih, firstWithNorm, if_neg h]

theorem firstWithNorm_mem {qs : List (List Nat)} {key q : List Nat}
    (h : firstWithNorm qs key = some q) : q ∈ qs := by
  induction qs with
  | nil => simp [firstWithNorm] at h
  | cons x rest ih =>
    rw [firstWithNorm] at h
    by_cases hx : normalizeQ x = key
    · rw [if_pos hx] at h
      injection h with h
      subst h
      exact List.mem_cons_self _ _
    · rw [if_neg hx] at h
      exact List.mem_cons_of_mem _ (ih h)

/-- C10: for every question list, every normalised form surfaced as repeated
is the normalisation of some input question, so the `next(...)` lookup (a
generator with no default) always finds a value — the loop completes and
`repeated_readable` never escapes with a `StopIteration` — and each
representative found normalises back to its group's key. -/
theorem C10_next_never_raises (qs : List (List Nat)) :
    (∀ p ∈ repeatedPairs qs, ∃ q ∈ qs, normalizeQ q = p.1)
    ∧ ∃ l, repeated_readable qs = some l
        ∧ List.Forall₂ (fun g pr => normalizeQ pr.1 = g.1) (repeatedPairs qs) l := by
  have hex : ∀ p ∈ repeatedPairs qs, ∃ q ∈ qs, normalizeQ q = p.1 :=
    fun p hp => (repeatedPairs_mem hp).2
  refine ⟨hex, ?_⟩
  have hsome : ∀ p ∈ repeatedPairs qs,
      ((qs.find? (fun q => decide (normalizeQ q = p.1))).map
        (fun orig => (orig, p.2))).isSome = true := by
    intro p hp
    obtain ⟨q, hq, hnq⟩ := hex p hp
    rw [Option.isSome_map']
    exact List.find?_isSome.mpr ⟨q, hq, by simp [hnq]⟩
  obtain ⟨l, hl⟩ := mapOpt_isSome hsome
  refine ⟨l, hl, ?_⟩
  refine List.Forall₂.imp ?_ (mapOpt_eq_some_iff.mp hl)
  intro p pr hppr
  rw [Option.map_eq_some'] at hppr
  obtain ⟨orig, ho, hpr⟩ := hppr
  have hdec := List.find?_some ho
  have heq : normalizeQ orig = p.1 := by simpa using hdec
  subst hpr
  exact heq

theorem C10_witness :
    ∃ q ∈ [toCodes "Explain the OSI model in detail.",
        toCodes "explain the osi model in detail. "],
      normalizeQ q = (toCodes "explain the osi model in detail.", 2).1 :=
  (C10_next_never_raises _).1 _ (by decide)

/-- C6: for every surfaced repeat group, the displayed representative is the
first question of the input sequence, in document order, whose normalisation
equals the group's normalised form; it is one of the original (untouched)
input strings, and it carries the group's count. -/
theorem C6_representative_first (qs : List (List Nat)) (l : List (List Nat × Nat))
    (h : repeated_readable qs = some l) :
    List.Forall₂
      (fun g pr => firstWithNorm qs g.1 = some pr.1 ∧ pr.1 ∈ qs ∧ pr.2 = g.2)
      (repeatedPairs qs) l := by
  refine List.Forall₂.imp ?_ (mapOpt_eq_some_iff.mp h)
  intro p pr hppr
  rw [Option.map_eq_some'] at hppr
  obtain ⟨orig, ho, hpr⟩ := hppr
  rw [find?_eq_firstWithNorm] at ho
  subst hpr
  exact ⟨ho, firstWithNorm_mem ho, rfl⟩

theorem C6_witness :
    List.Forall₂
      (fun g pr => firstWithNorm [toCodes "Explain the OSI model in detail.",
          toCodes "explain the osi model in detail. "] g.1 = some pr.1
        ∧ pr.1 ∈ [toCodes "Explain the OSI model in detail.",
            toCodes "explain the osi model in detail. "]
        ∧ pr.2 = g.2)
      (repeatedPairs [toCodes "Explain the OSI model in detail.",
          toCodes "explain the osi model in detail. "])
      [(toCodes "Explain the OSI model in detail.", 2)] :=
  C6_representative_first _ _ (by decide)

/-- C5: every repeat group surfaced as repeated has occurrence count
strictly greater than 1, and the display list is the surfaced groups (a
permutation of them) sorted in descending order of count. -/
theorem C5_sorted_descending (qs : List (List Nat)) (l : List (List Nat × Nat))
    (h : repeated_readable qs = some l) :
    List.Sorted (fun a b : List Nat × Nat => b.2 ≤ a.2) (sortByCountDesc l)
    ∧ (sortByCountDesc l).Perm l
    ∧ ∀ p ∈ sortByCountDesc l, 1 < p.2 := by
  refine ⟨?_, ?_, ?_⟩
  · unfold sortByCountDesc
    exact @List.sorted_insertionSort (List Nat × Nat) (fun a b => b.2 ≤ a.2)
      (fun a b => Nat.decLe b.2 a.2)
      ⟨fun a b => le_total b.2 a.2⟩ ⟨fun a b c h1 h2 => le_trans h2 h1⟩ l
  · unfold sortByCountDesc
    exact List.perm_insertionSort _ _
  · intro p hp
    unfold sortByCountDesc at hp
    rw [List.mem_insertionSort] at hp
    obtain ⟨g, hg, hR⟩ := forall₂_mem_right (mapOpt_eq_some_iff.mp h) p hp
    rw [Option.map_eq_some'] at hR
    obtain ⟨orig, -, hpr⟩ := hR
    have h1 := (repeatedPairs_mem hg).1
    rw [← hpr]
    exact h1

theorem C5_witness :
    List.Sorted (fun a b : List Nat × Nat => b.2 ≤ a.2)
      (sortByCountDesc [(toCodes "Explain the OSI model in detail.", 2)])
    ∧ 1 < (toCodes "Explain the OSI model in detail.", 2).2 :=
  ⟨(C5_sorted_descending [toCodes "Explain the OSI model in detail.",
      toCodes "explain the osi model in detail. "]
      [(toCodes "Explain the OSI model in detail.", 2)] (by decide)).1,
    (C5_sorted_descending [toCodes "Explain the OSI model in detail.",
      toCodes "explain the osi model in detail. "]
      [(toCodes "Explain the OSI model in detail.", 2)] (by decide)).2.2 _ (by decide)⟩

theorem take_min_length (qs : List (List Nat)) :
    qs.take (min 50 qs.length) = qs.take 50 := by
  rcases le_total 50 qs.length with h | h
  · rw [min_eq_left h]
  · rw [min_eq_right h, List.take_of_length_le h, List.take_of_length_le (le_refl _)]

/-- C8: the question block embedded into the pattern-analysis prompt joins
exactly the first min(50, length) extracted questions, in extraction
order. -/
theorem C8_prompt_first_50 (qs : List (List Nat)) :
    joined_questions qs = joinNL (qs.take (min 50 qs.length))
    ∧ (qs.take 50).length = min 50 qs.length
    ∧ ∀ i : Nat, i < min 50 qs.length → (qs.take 50)[i]? = qs[i]? := by
  refine ⟨?_, ?_, ?_⟩
  · unfold joined_questions
    rw [take_min_length]
  · rw [List.length_take]
  · intro i hi
    rw [List.getElem?_take, if_pos (lt_of_lt_of_le hi (min_le_left _ _))]

theorem C8_witness :
    ([toCodes "First sample question text",
        toCodes "Second sample question text"].take 50)[1]?
      = [toCodes "First sample question text",
          toCodes "Second sample question text"][1]? :=
  (C8_prompt_first_50 _).2.2 1 (by decide)

end QPP
